import Mathlib

/-!
Verification of the kilt rework engine against its specification.

This file gives a shallow embedding, in Lean 4, of the parts of the
google/kilt sources that the specification's claims are about:

* `pkg/queue/queue.go` — the operation queue, its text serialization and
  the executor;
* `pkg/rework/rework.go` — the rework command state files, the outer
  `Command.Execute` / `continueRework` protocol and `NewBeginCommand`
  together with `selectRevDepPatchsets`;
* `pkg/repo/repo.go` — metadata commit messages, their parser, and
  `ReworkInProgress` / `checkRework`;
* `pkg/patchset/patchset.go` — patchsets and versions;
* the dependency graph (`StructGraph`): `Add`, `TransitiveDependencies`,
  `calculateReverseDependencies` and `TransitiveReverseDependencies`.

Go strings are modelled as `List Char` (`GoStr`), Go slices as lists, Go
maps as association lists whose helper operations (`List.lookup`, `aset`)
mirror map lookup and update; map-iteration order is never relevant to the
functions embedded here (the only iterations are over slices).  Go `int`
is modelled as `Int`; the only place a bit width matters to the claims is
`strconv.ParseInt(v, 10, 32)`, whose 32-bit range check is modelled
explicitly.  Effectful operations are modelled by explicit state passing;
fallible Go functions return `Except`/`Option`.
-/

namespace Kilt

/-- Go strings, modelled as their sequence of runes. -/
abbrev GoStr := List Char

/-- Go's `unicode.IsSpace`: the Unicode White_Space code points. -/
def goIsSpace (c : Char) : Bool :=
  let n := c.toNat
  n == 9 || n == 10 || n == 11 || n == 12 || n == 13 || n == 32 ||
  n == 0x85 || n == 0xA0 || n == 0x1680 || (0x2000 ≤ n && n ≤ 0x200A) ||
  n == 0x2028 || n == 0x2029 || n == 0x202F || n == 0x205F || n == 0x3000

/-- POSIX `[[:space:]]` as used by Go's regexp package (ASCII only). -/
def posixSpace (c : Char) : Bool :=
  let n := c.toNat
  (9 ≤ n && n ≤ 13) || n == 32

/-- POSIX `[-[:alnum:]]` as used in the metadata field regexp (ASCII only). -/
def isAlnumDash (c : Char) : Bool :=
  c == '-' || ('0' ≤ c && c ≤ '9') || ('a' ≤ c && c ≤ 'z') || ('A' ≤ c && c ≤ 'Z')

/-- Split a string at every character satisfying `p`, keeping empty pieces.
With `p := (· == sep)` this is Go's `strings.Split(s, sep)` for a
one-character separator. -/
def splitIf (p : Char → Bool) : GoStr → List GoStr
  | [] => [[]]
  | c :: cs =>
    if p c then [] :: splitIf p cs
    else
      match splitIf p cs with
      | [] => [[c]]
      | r :: rs => (c :: r) :: rs

/-- Go's `strings.Split(s, "\n")`. -/
def splitLines (s : GoStr) : List GoStr := splitIf (· == '\n') s

/-- Go's `strings.Fields`: the maximal runs of non-whitespace characters. -/
def goFields (s : GoStr) : List GoStr :=
  (splitIf goIsSpace s).filter (fun t => !t.isEmpty)

/-- Go's `strings.Join(l, sep)`. -/
def goJoin (sep : GoStr) : List GoStr → GoStr
  | [] => []
  | [x] => x
  | x :: xs => x ++ sep ++ goJoin sep xs

/-- Update-or-append on an association list: the model of Go map assignment
`m[k] = v`.  Keys stay unique if they were. -/
def aset {α : Type} (m : List (GoStr × α)) (k : GoStr) (v : α) : List (GoStr × α) :=
  match m with
  | [] => [(k, v)]
  | (k', v') :: rest => if k' == k then (k, v) :: rest else (k', v') :: aset rest k v

section SplitLemmas

theorem splitIf_ne_nil (p : Char → Bool) (s : GoStr) : splitIf p s ≠ [] := by
  cases s with
  | nil => simp [splitIf]
  | cons c cs =>
    simp only [splitIf]
    split
    · simp
    · split <;> simp

theorem splitIf_of_no_sep (p : Char → Bool) (s : GoStr)
    (h : ∀ c ∈ s, p c = false) : splitIf p s = [s] := by
  induction s with
  | nil => rfl
  | cons c cs ih =>
    have hc : p c = false := h c (by simp)
    have hrest : splitIf p cs = [cs] := ih (fun x hx => h x (by simp [hx]))
    simp [splitIf, hc, hrest]

theorem splitIf_append_sep (p : Char → Bool) (a b : GoStr) (c : Char)
    (ha : ∀ x ∈ a, p x = false) (hc : p c = true) :
    splitIf p (a ++ c :: b) = a :: splitIf p b := by
  induction a with
  | nil => simp [splitIf, hc]
  | cons x xs ih =>
    have hx : p x = false := ha x (by simp)
    have hrest := ih (fun y hy => ha y (by simp [hy]))
    simp only [List.cons_append, splitIf, hx, Bool.false_eq_true, if_false]
    rw [show xs.append (c :: b) = xs ++ c :: b from rfl, hrest]

end SplitLemmas

/-! ## `pkg/queue/queue.go` -/

/-- Errors surfaced by the embedded code.  Each constructor stands for one
of the Go error values or `fmt.Errorf` families relevant to the claims. -/
inductive GoErr : Type
  /-- `queue.ErrEmpty` ("no items in queue"). -/
  | empty
  /-- `fmt.Errorf("apply: invalid operation %q", name)` and the analogous
  enqueue error. -/
  | unknownOp (name : GoStr)
  /-- `repo.ErrUserActionRequired` (cherry-pick conflict). -/
  | userActionRequired
  /-- `fmt.Errorf("rework already in progress")`. -/
  | alreadyInProgress
  /-- a backing-store (libgit2) failure. -/
  | backingStore
  /-- a metadata parse failure in `patchsetFromMetadata`. -/
  | metadataParse
  /-- dependency-graph errors: self dependency. -/
  | selfDep
  /-- dependency-graph errors: dependency on a preceding patchset. -/
  | outOfOrder
  /-- dependency-graph errors: duplicate edge. -/
  | duplicate
  /-- `log.Exitf` on a missing or unloadable dependencies file. -/
  | exit
deriving DecidableEq, Repr

/-- `queue.Item`: an operation name with arguments. -/
structure Item where
  operation : GoStr
  args : List GoStr
deriving DecidableEq, Repr

/-- `Item.MarshalText`: space-joined tokens plus a newline. -/
def Item.marshalText (i : Item) : GoStr :=
  goJoin [' '] (i.operation :: i.args) ++ ['\n']

/-- `Item.UnmarshalText` applied to the zero `Item` (as in queue loading):
`strings.Fields`, first token the name, the rest the arguments. -/
def itemUnmarshalFresh (text : GoStr) : Item :=
  match goFields text with
  | [] => { operation := [], args := [] }
  | op :: rest => { operation := op, args := rest }

/-- `queue.Queue`. -/
structure Queue where
  items : List Item
deriving DecidableEq, Repr

/-- `Queue.MarshalText`: concatenation of the items' marshalled lines. -/
def Queue.marshalText (q : Queue) : GoStr :=
  (q.items.map Item.marshalText).flatten

/-- `Queue.UnmarshalText` semantics on one line: the parsed item, or
nothing when the parsed operation name is empty (blank lines). -/
def lineItem (line : GoStr) : Option Item :=
  let i := itemUnmarshalFresh line
  if i.operation.isEmpty then none else some i

/-- `Queue.UnmarshalText`: split on newlines, parse each line, skip items
with an empty operation name, append to the existing items. -/
def Queue.unmarshalText (q : Queue) (text : GoStr) : Queue :=
  { items := q.items ++ (splitLines text).filterMap lineItem }

/-- `queue.Operation`: resumable flag plus behaviour.  The Go `Execute`
closures act on the repository; only their success or failure is visible
to the queue machinery, so they are modelled as functions from the
arguments to an optional error (`none` = success). -/
structure Operation where
  resumable : Bool
  exec : List GoStr → Option GoErr

/-- `queue.Executor`: a registration table plus the internal queue. -/
structure Executor where
  registered : List (GoStr × Operation)
  queue : List Item

/-- `Executor.Resumable`: flag of the registered operation; Go map lookup
of a missing key yields the zero `Operation`, whose flag is `false`. -/
def Executor.resumableOf (e : Executor) (name : GoStr) : Bool :=
  ((List.lookup name e.registered).map Operation.resumable).getD false

/-- `Executor.Peek`. -/
def Executor.peek (e : Executor) : Option Item := e.queue.head?

/-- `Executor.Execute`: pop the head item (failing with `ErrEmpty`), then
`apply` it — the pop happens before dispatch and is not rolled back. -/
def Executor.execute (e : Executor) : Executor × Option GoErr :=
  match e.queue with
  | [] => (e, some .empty)
  | item :: rest =>
    let e' : Executor := { e with queue := rest }
    match List.lookup item.operation e.registered with
    | none => (e', some (.unknownOp item.operation))
    | some op => (e', op.exec item.args)

/-! ## `pkg/rework/rework.go`: state files -/

/-- The two files a `stateFile` manages: `<stem>` (the queue) and
`<stem>-current` (the in-flight item).  `none` models an absent file. -/
structure FS where
  queueFile : Option GoStr
  currentFile : Option GoStr
deriving DecidableEq, Repr

/-- `stateFile.ClearQueueState` (`os.RemoveAll`, which succeeds on an
absent path). -/
def clearQueueState (fs : FS) : FS := { fs with queueFile := none }

/-- `stateFile.ClearCurrentState`. -/
def clearCurrentState (fs : FS) : FS := { fs with currentFile := none }

/-- `stateFile.WriteQueueState`: an empty queue clears instead of writing. -/
def writeQueueState (q : Queue) (fs : FS) : FS :=
  if q.items.isEmpty then clearQueueState fs
  else { fs with queueFile := some q.marshalText }

/-- `stateFile.WriteCurrentState`: an empty operation name clears instead
of writing. -/
def writeCurrentState (item : Item) (fs : FS) : FS :=
  if item.operation.isEmpty then clearCurrentState fs
  else { fs with currentFile := some item.marshalText }

/-- `stateFile.ReadState`: an absent file reads as an empty queue. -/
def readState (fs : FS) : Queue :=
  match fs.queueFile with
  | none => { items := [] }
  | some text => Queue.unmarshalText { items := [] } text

/-- `stateFile.ReadCurrentState`: an absent or empty file, or one whose
parsed operation name is empty, reads as an empty queue; otherwise a
one-item queue. -/
def readCurrentState (fs : FS) : Queue :=
  match fs.currentFile with
  | none => { items := [] }
  | some text =>
    if text.isEmpty then { items := [] }
    else
      let item := itemUnmarshalFresh text
      if item.operation.isEmpty then { items := [] }
      else { items := [item] }

/-! ## `pkg/rework/rework.go`: the outer `Command.Execute` and `continueRework` -/

/-- `Command.Execute`: peek; when the head item's operation is resumable,
write it to the current-file; run one executor step; on success clear the
current-file, on failure return the error leaving the current-file as
written. -/
def commandExecute (e : Executor) (fs : FS) : Executor × FS × Option GoErr :=
  let fs1 :=
    match e.peek with
    | some item => if e.resumableOf item.operation then writeCurrentState item fs else fs
    | none => fs
  let (e', res) := e.execute
  match res with
  | none => (e', clearCurrentState fs1, none)
  | some err => (e', fs1, some err)

/-- `continueRework`: the items loaded into the executor — the current-file
queue first, then the queue-file queue. -/
def continueLoad (fs : FS) : List Item :=
  (readCurrentState fs).items ++ (readState fs).items

/-! ## `pkg/patchset/patchset.go` and the metadata model of `pkg/repo/repo.go` -/

/-- Decimal digits of a natural number, most significant first; the digit
sequence Go's `fmt.Sprintf("%d", …)` prints for a non-negative value. -/
def natToDigits (n : Nat) : GoStr :=
  if h : n < 10 then [Char.ofNat (48 + n)]
  else natToDigits (n / 10) ++ [Char.ofNat (48 + n % 10)]
termination_by n
decreasing_by
  exact Nat.div_lt_self (by omega) (by omega)

/-- Go's `fmt.Sprintf("%d", v)` for an `int` value, hence also
`patchset.Version.String`. -/
def intToGoStr (v : Int) : GoStr :=
  if v < 0 then '-' :: natToDigits (-v).toNat else natToDigits v.toNat

/-- Numeric value of a decimal digit character, when it is one. -/
def digitVal (c : Char) : Option Nat :=
  if '0' ≤ c && c ≤ '9' then some (c.toNat - 48) else none

/-- Parse a non-empty all-digit string as a natural number. -/
def parseDigits (s : GoStr) : Option Nat :=
  match s with
  | [] => none
  | _ => s.foldl (fun acc c => acc.bind fun a => (digitVal c).map fun d => 10 * a + d) (some 0)

/-- Go's `strconv.ParseInt(s, 10, 32)` as used by `patchset.ParseVersion`:
an optional leading sign, a non-empty run of decimal digits, and a signed
32-bit range check; any violation is an error (`none`). -/
def goParseInt32 (s : GoStr) : Option Int :=
  match s with
  | [] => none
  | c :: rest =>
    let neg := c == '-'
    let digits := if c == '-' || c == '+' then rest else c :: rest
    match parseDigits digits with
    | none => none
    | some n =>
      let v : Int := if neg then -(n : Int) else (n : Int)
      if v < -(2 ^ 31) || 2 ^ 31 - 1 < v then none else some v

/-- `patchset.Patchset`.  The Go `uuid.UUID` value (an external library
type) is represented by its canonical string rendering, so `UUID.String()`
is the identity and `uuid.Parse` of a canonical rendering is the identity;
the version's Go `int` is an `Int`. -/
structure Patchset where
  name : GoStr
  uuid : GoStr
  version : Int
  metadata : GoStr
  patches : List GoStr
  floating : List GoStr
deriving DecidableEq, Repr

/-- `Patchset.SameAs`: UUID equality only. -/
def Patchset.sameAs (p q : Patchset) : Bool := p.uuid == q.uuid

/-- `patchset.Load`: Go returns `nil` (here `none`) when the name or the
UUID string is empty. -/
def patchsetLoad (name uuid : GoStr) (version : Int) : Option Patchset :=
  if name.isEmpty || uuid.isEmpty then none
  else some { name := name, uuid := uuid, version := version,
              metadata := [], patches := [], floating := [] }

/-- The constant `metadataPrefix`. -/
def metadataPrefix : GoStr := "kilt metadata: patchset ".toList

/-- The commit message `createMetadataCommit` produces, per the
`metadataMessage` format string:
`"kilt metadata: patchset %s\n\nPatchset-Name: %s\nPatchset-UUID: %s\nPatchset-Version: %s\n"`
instantiated with the patchset's name, name, UUID and version. -/
def metadataMessage (ps : Patchset) : GoStr :=
  metadataPrefix ++ ps.name ++ '\n' :: '\n' ::
  ("Patchset-Name: ".toList ++ ps.name) ++ '\n' ::
  ("Patchset-UUID: ".toList ++ ps.uuid) ++ '\n' ::
  ("Patchset-Version: ".toList ++ intToGoStr ps.version) ++ ['\n']

/-- One body line matched against the anchored Go regexp
`^([-[:alnum:]]+):[[:space:]]?(.*)$`: a non-empty maximal run of
`[-[:alnum:]]` characters, a colon, at most one ASCII space character,
then the value, which (since `.` never matches `\n` and `$` anchors the
end of the text) must be newline-free. -/
def parseFieldLine (l : GoStr) : Option (GoStr × GoStr) :=
  let key := l.takeWhile isAlnumDash
  match l.dropWhile isAlnumDash with
  | ':' :: r =>
    let v := match r with
      | c :: rest => if posixSpace c then rest else r
      | [] => r
    if key.isEmpty || v.contains '\n' then none else some (key, v)
  | _ => none

/-- `parseFields`: split the message on newlines, skip the first line, and
collect the field matches into a map (later lines override earlier ones,
as Go map assignment does). -/
def parseFields (message : GoStr) : List (GoStr × GoStr) :=
  ((splitLines message).drop 1).foldl
    (fun fields l =>
      match parseFieldLine l with
      | some (k, v) => aset fields k v
      | none => fields)
    []

/-- `patchsetFromMetadata`: extract the three fields, parse the version,
and `Load` the patchset (`.ok none` models Go's `nil, nil`). -/
def patchsetFromMetadata (metadata : GoStr) : Except GoErr (Option Patchset) :=
  let fields := parseFields metadata
  match List.lookup "Patchset-Name".toList fields with
  | none => .error .metadataParse
  | some name =>
    match List.lookup "Patchset-UUID".toList fields with
    | none => .error .metadataParse
    | some uuid =>
      match List.lookup "Patchset-Version".toList fields with
      | none => .error .metadataParse
      | some v =>
        match goParseInt32 v with
        | none => .error .metadataParse
        | some version => .ok (patchsetLoad name uuid version)

/-! ## `pkg/repo/repo.go`: rework refs -/

/-- A reference in the backing store: direct (to a commit) or symbolic
(to another ref name). -/
inductive GitRef : Type
  | direct (oid : GoStr)
  | symbolic (target : GoStr)
deriving DecidableEq, Repr

/-- The reference database, name → ref. -/
structure RefStore where
  refs : List (GoStr × GitRef)
deriving DecidableEq, Repr

/-- `References.Lookup`. -/
def refLookup (s : RefStore) (name : GoStr) : Option GitRef :=
  List.lookup name s.refs

/-- `Reference.Resolve`: follow symbolic refs to a direct ref, returning
the name of the resolved (direct) reference; `none` models a resolution
error (dangling symbolic ref or the backing store's nesting limit). -/
def refResolve (s : RefStore) : Nat → GoStr → GitRef → Option GoStr
  | 0, _, _ => none
  | _ + 1, name, .direct _ => some name
  | fuel + 1, _, .symbolic t =>
    match refLookup s t with
    | none => none
    | some r => refResolve s fuel t r

/-- The name `path.Join(refPath, "rework/branch")`. -/
def reworkBranchRef : GoStr := "refs/kilt/rework/branch".toList

/-- The name `path.Join(refPath, "rework/head")`. -/
def reworkHeadRef : GoStr := "refs/kilt/rework/head".toList

/-- `checkRework` (the body of `ReworkInProgress`): look up only
`refs/kilt/rework/branch`; not-found yields `false`, any other lookup or
resolution failure is an error, and success yields `true` exactly when the
resolved ref has a non-empty name. -/
def checkRework (s : RefStore) : Except GoErr Bool :=
  match refLookup s reworkBranchRef with
  | none => .ok false
  | some r =>
    match refResolve s 10 reworkBranchRef r with
    | none => .error .backingStore
    | some name => .ok (!name.isEmpty)

/-! ## The dependency graph (`StructGraph`)

The `repo.PatchsetCache` record is not among the provided sources; its
shape (an ordered `Slice` of patchsets plus a name → position `Index` map)
is reconstructed from its uses in the dependency and rework packages and
from the specification's data model. -/

/-- `repo.PatchsetCache`: ordered patchsets plus the name → index map.
Go map lookup of a missing name yields `0`. -/
structure PatchsetCache where
  slice : List Patchset
  index : List (GoStr × Int)
deriving DecidableEq, Repr

/-- `cache.Index[name]`, with Go's zero default for missing keys. -/
def PatchsetCache.idx (c : PatchsetCache) (name : GoStr) : Int :=
  (List.lookup name c.index).getD 0

/-- The `dependency` record: the owning patchset and its ordered predicate
list (the `patchsetPredicate` wrapper adds nothing and is elided). -/
structure DepRecord where
  patchset : Patchset
  predicates : List Patchset
deriving DecidableEq, Repr

/-- `dependency.StructGraph`. -/
structure StructGraph where
  patchsets : PatchsetCache
  reverseDependencies : List (GoStr × List Patchset)
  dependencies : List (GoStr × DepRecord)
deriving DecidableEq, Repr

/-- `dependency.NewStruct`. -/
def newStruct (cache : PatchsetCache) : StructGraph :=
  { patchsets := cache, reverseDependencies := [], dependencies := [] }

/-- `StructGraph.checkOrder`: `Index[ps.Name()] > Index[dep.Name()]`. -/
def StructGraph.checkOrder (g : StructGraph) (ps dep : Patchset) : Bool :=
  g.patchsets.idx ps.name > g.patchsets.idx dep.name

/-- `StructGraph.Add`: reject a self dependency, then an out-of-order
edge, then a duplicate edge; otherwise append the predicate to the
(possibly fresh) record for `ps` and store it back. -/
def StructGraph.add (g : StructGraph) (ps dep : Patchset) : Except GoErr StructGraph :=
  if ps.sameAs dep then .error .selfDep
  else if !g.checkOrder ps dep then .error .outOfOrder
  else
    let deps := (List.lookup ps.uuid g.dependencies).getD { patchset := ps, predicates := [] }
    if deps.predicates.any (fun p => p.sameAs dep) then .error .duplicate
    else .ok { g with
      dependencies := aset g.dependencies ps.uuid
        { deps with predicates := deps.predicates ++ [dep] } }

/-- The predicates recorded for a given UUID in a uuid → predicate-list
map, with Go's `nil` default. -/
def nbrs (m : List (GoStr × List Patchset)) (u : GoStr) : List Patchset :=
  (List.lookup u m).getD []

/-- All UUIDs that occur in some predicate list of the map: the universe
from which the walk below can ever draw a new queue entry. -/
def predUniv (m : List (GoStr × List Patchset)) : List GoStr :=
  m.flatMap (fun e => e.2.map Patchset.uuid)

/-- One pass over a predicate list: keep (in order) the patchsets whose
UUID is not yet seen, marking each kept UUID seen for the rest of the
pass — exactly the Go inner loop's interleaved `seen` updates. -/
def newPreds (seen : List GoStr) : List Patchset → List Patchset
  | [] => []
  | p :: ps =>
    if seen.contains p.uuid then newPreds seen ps
    else p :: newPreds (p.uuid :: seen) ps

theorem newPreds_subset {seen : List GoStr} {l : List Patchset} :
    ∀ p ∈ newPreds seen l, p ∈ l := by
  induction l generalizing seen with
  | nil => simp [newPreds]
  | cons q qs ih =>
    intro p hp
    simp only [newPreds] at hp
    split at hp
    · exact List.mem_cons_of_mem _ (ih p hp)
    · rcases List.mem_cons.1 hp with h | h
      · simp [h]
      · exact List.mem_cons_of_mem _ (ih p h)

theorem newPreds_unseen {seen : List GoStr} {l : List Patchset} :
    ∀ p ∈ newPreds seen l, p.uuid ∉ seen := by
  induction l generalizing seen with
  | nil => simp [newPreds]
  | cons q qs ih =>
    intro p hp
    simp only [newPreds] at hp
    split at hp
    · exact ih p hp
    · rename_i hq
      rcases List.mem_cons.1 hp with h | h
      · subst h
        intro hc
        exact hq (List.elem_iff.2 hc)
      · have := ih p h
        intro hc
        exact this (List.mem_cons_of_mem _ hc)

theorem newPreds_nodup {seen : List GoStr} {l : List Patchset} :
    ((newPreds seen l).map Patchset.uuid).Nodup := by
  induction l generalizing seen with
  | nil => simp [newPreds]
  | cons q qs ih =>
    simp only [newPreds]
    split
    · exact ih
    · simp only [List.map_cons, List.nodup_cons]
      refine ⟨?_, ih⟩
      intro hmem
      rcases List.mem_map.1 hmem with ⟨p, hp, hu⟩
      exact newPreds_unseen p hp (by rw [hu]; exact List.mem_cons_self _ _)

/-- A successful association-list lookup exhibits a member pair. -/
theorem lookup_mem {α : Type} {m : List (GoStr × α)} {u : GoStr} {l : α}
    (hl : List.lookup u m = some l) : (u, l) ∈ m := by
  induction m with
  | nil => simp [List.lookup] at hl
  | cons e es ih =>
    rw [List.lookup] at hl
    by_cases h : u == e.1
    · rw [h] at hl
      simp only at hl
      cases hl
      have hu : u = e.1 := beq_iff_eq.mp h
      have he : (u, e.2) = e := by rw [hu]
      rw [he]
      exact List.mem_cons_self _ _
    · rw [Bool.not_eq_true] at h
      rw [h] at hl
      simp only at hl
      exact List.mem_cons_of_mem _ (ih hl)

theorem newPreds_in_univ {m : List (GoStr × List Patchset)} {seen : List GoStr} {u : GoStr} :
    ∀ p ∈ newPreds seen (nbrs m u), p.uuid ∈ predUniv m := by
  intro p hp
  have hmem : p ∈ nbrs m u := newPreds_subset p hp
  unfold nbrs at hmem
  cases hl : List.lookup u m with
  | none => rw [hl] at hmem; simp at hmem
  | some l =>
    rw [hl] at hmem
    simp only [Option.getD_some] at hmem
    unfold predUniv
    exact List.mem_flatMap.2 ⟨(u, l), lookup_mem hl, List.mem_map_of_mem _ hmem⟩

/-- Number of UUIDs of the universe not yet seen — the potential of the
walk's termination measure. -/
def unseenCount (m : List (GoStr × List Patchset)) (seen : List GoStr) : Nat :=
  ((predUniv m).toFinset \ seen.toFinset).card

theorem unseenCount_step (m : List (GoStr × List Patchset)) (seen : List GoStr)
    (news : List Patchset)
    (hsub : ∀ p ∈ news, p.uuid ∈ predUniv m)
    (hunseen : ∀ p ∈ news, p.uuid ∉ seen)
    (hnodup : (news.map Patchset.uuid).Nodup) :
    unseenCount m (seen ++ news.map Patchset.uuid) + news.length = unseenCount m seen := by
  classical
  unfold unseenCount
  have hsubF : (news.map Patchset.uuid).toFinset ⊆ (predUniv m).toFinset \ seen.toFinset := by
    intro u hu
    rcases List.mem_toFinset.1 hu with hu'
    rcases List.mem_map.1 hu' with ⟨p, hp, rfl⟩
    refine Finset.mem_sdiff.2 ⟨List.mem_toFinset.2 (hsub p hp), ?_⟩
    intro hseen
    exact hunseen p hp (List.mem_toFinset.1 hseen)
  have hsd : (predUniv m).toFinset \ (seen ++ news.map Patchset.uuid).toFinset
      = ((predUniv m).toFinset \ seen.toFinset) \ (news.map Patchset.uuid).toFinset := by
    rw [List.toFinset_append]
    ext u
    simp only [Finset.mem_sdiff, Finset.mem_union]
    tauto
  have hcardF : (news.map Patchset.uuid).toFinset.card = news.length := by
    rw [List.toFinset_card_of_nodup hnodup, List.length_map]
  have hle : (news.map Patchset.uuid).toFinset.card
      ≤ ((predUniv m).toFinset \ seen.toFinset).card := Finset.card_le_card hsubF
  rw [hsd, Finset.card_sdiff hsubF, hcardF]
  omega

/-- The queue loop shared by `TransitiveDependencies` and
`TransitiveReverseDependencies`, embedded exactly as written — including
the source's dequeue `queue = queue[1 : len(queue)-1]`, which removes both
the head just processed and the current last element of the queue.  Each
iteration appends the not-yet-seen predicates of the head to the result,
the queue and the seen set, then either slices the queue or (at length
at most one) stops. -/
def walk (m : List (GoStr × List Patchset)) (queue : List Patchset)
    (seen : List GoStr) (acc : List Patchset) : List Patchset :=
  match queue with
  | [] => acc
  | ps :: rest =>
    let news := newPreds seen (nbrs m ps.uuid)
    let queue' := (ps :: rest) ++ news
    let acc' := acc ++ news
    if 1 < queue'.length then
      walk m (queue'.drop 1).dropLast (seen ++ news.map Patchset.uuid) acc'
    else acc'
termination_by 2 * unseenCount m seen + queue.length
decreasing_by
  rename_i hlt
  have hstep := unseenCount_step m seen (newPreds seen (nbrs m p.uuid))
    (fun q hq => newPreds_in_univ q hq)
    (fun q hq => newPreds_unseen q hq)
    newPreds_nodup
  have hlt' : 1 < (p :: ps ++ newPreds seen (nbrs m p.uuid)).length := hlt
  simp only [List.length_dropLast, List.length_drop, List.length_append,
    List.length_cons, List.cons_append] at hlt' ⊢
  omega

/-- `StructGraph.TransitiveDependencies`: run the queue loop over the
forward map, starting from `ps` with `ps` already seen. -/
def StructGraph.transitiveDependencies (g : StructGraph) (ps : Patchset) : List Patchset :=
  walk (g.dependencies.map (fun e => (e.1, e.2.predicates))) [ps] [ps.uuid] []

/-- One slice element of `calculateReverseDependencies`: give the cached
patchset an (initially nil) entry, then append it to the reverse list of
each of its predicates. -/
def calcStep (g : StructGraph) (memo : List (GoStr × List Patchset)) (ps : Patchset) :
    List (GoStr × List Patchset) :=
  let memo1 := aset memo ps.uuid []
  let preds := ((List.lookup ps.uuid g.dependencies).map DepRecord.predicates).getD []
  preds.foldl
    (fun m p => aset m p.uuid ((List.lookup p.uuid m).getD [] ++ [ps]))
    memo1

/-- `calculateReverseDependencies`: walk the cache slice in order. -/
def calcRevDeps (g : StructGraph) : List (GoStr × List Patchset) :=
  g.patchsets.slice.foldl (calcStep g) []

/-- `StructGraph.TransitiveReverseDependencies`: compute the reverse index
if it is empty (lazily, memoised in the returned graph), then run the
queue loop over it.  The mutation of the receiver is modelled by returning
the updated graph. -/
def StructGraph.transitiveReverseDependencies (g : StructGraph) (ps : Patchset) :
    List Patchset × StructGraph :=
  let g' := if g.reverseDependencies.isEmpty
    then { g with reverseDependencies := calcRevDeps g } else g
  (walk g'.reverseDependencies [ps] [ps.uuid] [], g')

/-- The specification's transitive closure, stated as the plain BFS the
spec describes (`spec.md` §4.3: "BFS closure excluding `p` itself; result
order is BFS discovery order").  This definition follows the spec's words,
for comparison with the source's `walk`; the only difference is the
dequeue, which here removes just the head. -/
def specClosureBFS (m : List (GoStr × List Patchset)) (queue : List Patchset)
    (seen : List GoStr) (acc : List Patchset) : List Patchset :=
  match queue with
  | [] => acc
  | ps :: rest =>
    let news := newPreds seen (nbrs m ps.uuid)
    specClosureBFS m (rest ++ news) (seen ++ news.map Patchset.uuid) (acc ++ news)
termination_by 2 * unseenCount m seen + queue.length
decreasing_by
  have hstep := unseenCount_step m seen (newPreds seen (nbrs m p.uuid))
    (fun q hq => newPreds_in_univ q hq)
    (fun q hq => newPreds_unseen q hq)
    newPreds_nodup
  simp only [List.length_append, List.length_cons]
  omega

/-- The spec's `transitive_dependencies(p)`: BFS closure of the direct
dependencies, excluding `p`, in discovery order. -/
def specTransitiveDependencies (g : StructGraph) (ps : Patchset) : List Patchset :=
  specClosureBFS (g.dependencies.map (fun e => (e.1, e.2.predicates))) [ps] [ps.uuid] []

/-- The spec's `transitive_reverse_dependencies(p)` over a given reverse
index. -/
def specTransitiveReverseDependencies (g : StructGraph) (ps : Patchset) : List Patchset :=
  specClosureBFS (calcRevDeps g) [ps] [ps.uuid] []

/-! ## `pkg/rework/rework.go`: target selection and `NewBeginCommand` -/

/-- The closed set of `TargetSelector` implementations in the source. -/
inductive Selector : Type
  | floating
  | allTargets
  | noTargets
  | byName (name : GoStr)
deriving DecidableEq, Repr

/-- `TargetSelector.Select`. -/
def Selector.sel : Selector → Patchset → Bool
  | .floating, p => !p.floating.isEmpty
  | .allTargets, _ => true
  | .noTargets, _ => false
  | .byName n, p => n == p.name

/-- `StructGraph.load`: install each entry of the parsed
name → dependency-names map, resolving every name in the cache; a missing
name is an error.  (Go iterates the map in unspecified order; the final
map contents do not depend on the order, and this model iterates the
association list in order.) -/
def structGraphLoad (g : StructGraph) (f : List (GoStr × List GoStr)) :
    Except GoErr StructGraph :=
  let names := g.patchsets.slice.foldl (fun m p => aset m p.name p) []
  let resolve : GoStr → Except GoErr Patchset := fun n =>
    match List.lookup n names with
    | none => .error .exit
    | some p => .ok p
  f.foldlM
    (fun g' entry => do
      let p ← resolve entry.1
      let preds ← entry.2.mapM resolve
      let record : DepRecord := { patchset := p, predicates := preds }
      return { g' with dependencies := aset g'.dependencies p.uuid record })
    g

/-- Stable insertion sort by a boolean `≤`. -/
def insertLE {α : Type} (le : α → α → Bool) (x : α) : List α → List α
  | [] => [x]
  | y :: ys => if le x y then x :: y :: ys else y :: insertLE le x ys

/-- Stable sort by a boolean `≤`. -/
def sortLE {α : Type} (le : α → α → Bool) : List α → List α
  | [] => []
  | x :: xs => insertLE le x (sortLE le xs)

/-- `selectRevDepPatchsets`: build a graph over the cache, load the parsed
dependencies file, then walk the cache in order; each not-yet-seen
patchset matched by some selector is appended together with its transitive
reverse dependencies (whose names are marked seen, but which are appended
without any filtering against `seen`); finally sort by cache index.
`sort.Slice` promises only a permutation ordered by the comparator; this
model uses a deterministic stable sort, which agrees with every
comparison sort whenever index-tied elements are equal, as they are for
every cache whose patchset names are distinct. -/
def selectRevDepPatchsets (cache : PatchsetCache) (depsFile : List (GoStr × List GoStr))
    (selectors : List Selector) : Except GoErr (List Patchset) := do
  let g ← structGraphLoad (newStruct cache) depsFile
  let step := fun (st : List GoStr × List Patchset × StructGraph) (p : Patchset) =>
    let (seen, selected, g) := st
    if !seen.contains p.name && selectors.any (fun s => s.sel p) then
      let (ps, g') := g.transitiveReverseDependencies p
      (seen ++ p.name :: ps.map Patchset.name, selected ++ p :: ps, g')
    else st
  let (_, selected, _) := cache.slice.foldl step ([], [], g)
  return sortLE (fun x y => cache.idx x.name ≤ cache.idx y.name) selected

/-- The queue `NewBeginCommand` builds, as a function of the cache, the
parsed dependencies file, the selectors, whether a rework is in progress,
and the current contents of the queue state file.  `Begin` is enqueued
only when no rework is in progress; with one in progress and a non-empty
queue file the command fails.  Then the cache is walked in order against
the sorted target list: at the first target either `Checkout` of the last
preceding non-target or `CheckoutBase` is emitted, each matched target
emits `Rework`, each later non-target emits `Apply`, and `UpdateHead`
closes the queue. -/
def beginQueue (cache : PatchsetCache) (depsFile : List (GoStr × List GoStr))
    (selectors : List Selector) (inProgress : Bool) (queueFileItems : List Item) :
    Except GoErr (List Item) := do
  if inProgress && !queueFileItems.isEmpty then
    throw .alreadyInProgress
  let start : List Item := if inProgress then [] else [{ operation := "Begin".toList, args := [] }]
  let revDeps ← selectRevDepPatchsets cache depsFile selectors
  let step := fun (st : Bool × Option Patchset × Nat × List Item) (p : Patchset) =>
    let (first, previous, i, items) := st
    match revDeps.get? i with
    | some r =>
      if r.sameAs p then
        let items := if first then
            items ++ [match previous with
              | some pr => { operation := "Checkout".toList, args := [pr.name] }
              | none => { operation := "CheckoutBase".toList, args := [] }]
          else items
        (false, previous, i + 1, items ++ [{ operation := "Rework".toList, args := [p.name] }])
      else if !first then
        (first, previous, i, items ++ [{ operation := "Apply".toList, args := [p.name] }])
      else (first, some p, i, items)
    | none =>
      if !first then
        (first, previous, i, items ++ [{ operation := "Apply".toList, args := [p.name] }])
      else (first, some p, i, items)
  let (_, _, _, items) := cache.slice.foldl step (true, none, 0, start)
  return items ++ [{ operation := "UpdateHead".toList, args := [] }]

/-! ## Concrete fixtures used by the claim theorems -/

/-- A cache patchset with only a name and a UUID, as the walk produces for
a freshly created metadata-only patchset. -/
def mkPatchset (name uuid : GoStr) : Patchset :=
  { name := name, uuid := uuid, version := 1, metadata := [],
    patches := [], floating := [] }

def psA : Patchset := mkPatchset "a".toList "ua".toList
def psB : Patchset := mkPatchset "b".toList "ub".toList
def psC : Patchset := mkPatchset "c".toList "uc".toList
def psD : Patchset := mkPatchset "d".toList "ud".toList

/-- A three-patchset cache `[a, b, c]` in branch order. -/
def cache3 : PatchsetCache :=
  { slice := [psA, psB, psC],
    index := [("a".toList, 0), ("b".toList, 1), ("c".toList, 2)] }

/-- The dependency graph over `cache3` with the chain `c → b → a`
(each edge loaded from the dependencies file `{"c":["b"],"b":["a"]}`). -/
def chainGraph : StructGraph :=
  { patchsets := cache3, reverseDependencies := [],
    dependencies :=
      [("uc".toList, { patchset := psC, predicates := [psB] }),
       ("ub".toList, { patchset := psB, predicates := [psA] })] }

/-- Loading the chain dependencies file over `cache3` yields `chainGraph`. -/
theorem chainGraph_load :
    structGraphLoad (newStruct cache3)
      [("c".toList, ["b".toList]), ("b".toList, ["a".toList])] = .ok chainGraph := by
  rfl

/-! ## C1 -/

/-- C1.  The claim states that `transitive_dependencies(p)` returns the
full BFS closure of `p`'s direct dependencies (the smallest set `S` with
`p ∉ S`, `direct_deps(p) ⊆ S` and `q ∈ S → direct_deps(q) ⊆ S`, in BFS
discovery order), and analogously for the reverse direction.  The code
does not: its dequeue `queue = queue[1 : len(queue)-1]` also discards the
last queue element, so discovered nodes are dropped before their own
dependencies are explored.  On the chain `c → b → a` the code returns
`[b]` for the transitive dependencies of `c` although the closure is
`{b, a}` (`a ∈ S` is forced by `b ∈ S`), and returns `[b]` for the
transitive reverse dependencies of `a` although the reverse closure is
`{b, c}`; the spec-side BFS (`specClosureBFS`, differing only in the
dequeue) yields exactly the closures. -/
theorem c1_transitive_dependencies_truncated :
    chainGraph.transitiveDependencies psC = [psB] ∧
    specTransitiveDependencies chainGraph psC = [psB, psA] ∧
    (chainGraph.transitiveReverseDependencies psA).1 = [psB] ∧
    specTransitiveReverseDependencies chainGraph psA = [psB, psC] := by
  refine ⟨?_, ?_, ?_, ?_⟩ <;>
    simp [StructGraph.transitiveDependencies, StructGraph.transitiveReverseDependencies,
      specTransitiveDependencies, specTransitiveReverseDependencies, specClosureBFS,
      walk, newPreds, nbrs, calcRevDeps, aset, chainGraph, cache3,
      psA, psB, psC, mkPatchset, List.lookup]

/-! ## C2 -/

/-- A four-patchset cache `[a, b, c, d]` in branch order. -/
def cache4 : PatchsetCache :=
  { slice := [psA, psB, psC, psD],
    index := [("a".toList, 0), ("b".toList, 1), ("c".toList, 2), ("d".toList, 3)] }

/-- A well-ordered dependencies file over `cache4`: `c` depends on both
`a` and `b`. -/
def diamondDeps : List (GoStr × List GoStr) :=
  [("c".toList, ["a".toList, "b".toList])]

/-- The cache of scenario S3: the single patchset `foo` (metadata commit
`m1`, one patch `p1`). -/
def cacheS3 : PatchsetCache :=
  { slice := [{ name := "foo".toList, uuid := "ufoo".toList, version := 1,
                metadata := "m1".toList, patches := ["p1".toList], floating := [] }],
    index := [("foo".toList, 0)] }

/-- The graph `selectRevDepPatchsets` loads from `diamondDeps` over
`cache4`. -/
def graph4 : StructGraph :=
  { patchsets := cache4, reverseDependencies := [],
    dependencies := [("uc".toList, { patchset := psC, predicates := [psA, psB] })] }

theorem graph4_load : structGraphLoad (newStruct cache4) diamondDeps = .ok graph4 := rfl

/-- The reverse index `calculateReverseDependencies` computes for
`graph4`. -/
def memo4 : List (GoStr × List Patchset) :=
  [("ua".toList, [psC]), ("ub".toList, [psC]), ("uc".toList, []), ("ud".toList, [])]

/-- `graph4` after the reverse index has been memoised. -/
def graph4m : StructGraph := { graph4 with reverseDependencies := memo4 }

theorem trd4a : graph4.transitiveReverseDependencies psA = ([psC], graph4m) := by
  have hcalc : calcRevDeps graph4 = memo4 := rfl
  have hrd : graph4.reverseDependencies = [] := rfl
  have hm : graph4m = { graph4 with reverseDependencies := memo4 } := rfl
  rw [StructGraph.transitiveReverseDependencies, hrd, hcalc]
  simp only [List.isEmpty_nil, if_true, ← hm]
  simp [walk, newPreds, nbrs, memo4, psA, psC, mkPatchset, List.lookup, graph4m]

theorem trd4mb : graph4m.transitiveReverseDependencies psB = ([psC], graph4m) := by
  have hrd : graph4m.reverseDependencies = memo4 := rfl
  rw [StructGraph.transitiveReverseDependencies, hrd]
  simp only [memo4, List.isEmpty_cons, if_false, Bool.false_eq_true, ← hrd]
  simp [walk, newPreds, nbrs, memo4, psB, psC, mkPatchset, List.lookup, hrd]

theorem trd4md : graph4m.transitiveReverseDependencies psD = ([], graph4m) := by
  have hrd : graph4m.reverseDependencies = memo4 := rfl
  rw [StructGraph.transitiveReverseDependencies, hrd]
  simp only [memo4, List.isEmpty_cons, if_false, Bool.false_eq_true, ← hrd]
  simp [walk, newPreds, nbrs, memo4, psD, psC, mkPatchset, List.lookup, hrd]

/-- The target list `selectRevDepPatchsets` produces on `cache4` with the
diamond dependencies and the `AllTargets` selector.  Note the duplicate:
`c` is appended as a reverse dependency of `a`, marked seen, but appended
again (unfiltered) as a reverse dependency of `b`. -/
theorem sel4 : selectRevDepPatchsets cache4 diamondDeps [.allTargets] =
    .ok [psA, psB, psC, psC, psD] := by
  rw [selectRevDepPatchsets, graph4_load]
  simp +decide only [bind, Except.bind, cache4, List.foldl_cons, List.foldl_nil,
    trd4a, trd4mb, trd4md, Selector.sel, List.any_cons, List.any_nil,
    if_true, if_false, List.map_cons, List.map_nil, List.cons_append, List.nil_append,
    List.append_nil]
  rfl

/-- The single patchset of scenario S3. -/
def psFoo : Patchset :=
  { name := "foo".toList, uuid := "ufoo".toList, version := 1,
    metadata := "m1".toList, patches := ["p1".toList], floating := [] }

/-- The (edgeless) dependency graph over the S3 cache. -/
def graphS3 : StructGraph := newStruct cacheS3

/-- `graphS3` after the reverse index has been memoised. -/
def graphS3m : StructGraph :=
  { graphS3 with reverseDependencies := [("ufoo".toList, [])] }

theorem trdS3 : graphS3.transitiveReverseDependencies psFoo = ([], graphS3m) := by
  have hcalc : calcRevDeps graphS3 = [("ufoo".toList, [])] := rfl
  have hrd : graphS3.reverseDependencies = [] := rfl
  have hm : graphS3m = { graphS3 with reverseDependencies := [("ufoo".toList, [])] } := rfl
  rw [StructGraph.transitiveReverseDependencies, hrd, hcalc]
  simp only [List.isEmpty_nil, if_true, ← hm]
  simp [walk, newPreds, nbrs, psFoo, List.lookup]

theorem selS3 : selectRevDepPatchsets cacheS3 [] [.allTargets] = .ok [psFoo] := by
  have hload : structGraphLoad (newStruct cacheS3) [] = .ok graphS3 := rfl
  rw [selectRevDepPatchsets, hload]
  have hslice : cacheS3.slice = [psFoo] := rfl
  simp +decide only [bind, Except.bind, hslice, List.foldl_cons, List.foldl_nil,
    trdS3, Selector.sel, List.any_cons, List.any_nil,
    if_true, if_false, List.map_cons, List.map_nil, List.cons_append, List.nil_append,
    List.append_nil]
  rfl

/-- C2.  The claim describes the queue `begin` builds: `Begin` when no
rework is in progress, a `Checkout`/`CheckoutBase` before the first
target, a `Rework <name>` *for each target* (selector matches extended by
transitive reverse dependencies, deduplicated and sorted into cache
order), an `Apply <name>` for every non-target after the first target,
then `UpdateHead`; and in scenario S3 exactly the four lines
`Begin\nCheckoutBase\nRework foo\nUpdateHead\n`.  The S3 half holds
(second conjunct).  The general description fails (first conjunct): on
the cache `[a, b, c, d]` with `c` depending on `a` and `b`, under
`AllTargets` every patchset is a target, but `selectRevDepPatchsets`
appends `c` twice (it marks reverse dependencies seen yet appends them
without filtering), the duplicate survives the sort, the merge in
`NewBeginCommand` consumes one `c` per match and its target index sticks
at the duplicate, and the target `d` is emitted as `Apply d` instead of
`Rework d`. -/
theorem c2_begin_queue_shape :
    (beginQueue cache4 diamondDeps [.allTargets] false [] =
      .ok [{ operation := "Begin".toList, args := [] },
           { operation := "CheckoutBase".toList, args := [] },
           { operation := "Rework".toList, args := ["a".toList] },
           { operation := "Rework".toList, args := ["b".toList] },
           { operation := "Rework".toList, args := ["c".toList] },
           { operation := "Apply".toList, args := ["d".toList] },
           { operation := "UpdateHead".toList, args := [] }]) ∧
    (beginQueue cacheS3 [] [.allTargets] false []).map
        (fun items => Queue.marshalText { items := items }) =
      .ok "Begin\nCheckoutBase\nRework foo\nUpdateHead\n".toList := by
  constructor
  · rw [beginQueue]
    simp only [sel4, bind, Except.bind]
    rfl
  · rw [beginQueue]
    simp only [selS3, bind, Except.bind]
    rfl

/-! ## C8 -/

theorem aset_ne_nil {α : Type} (m : List (GoStr × α)) (k : GoStr) (v : α) :
    aset m k v ≠ [] := by
  cases m with
  | nil => simp [aset]
  | cons e es =>
    simp only [aset]
    split <;> simp

theorem calcStep_ne_nil (g : StructGraph) (memo : List (GoStr × List Patchset))
    (ps : Patchset) : calcStep g memo ps ≠ [] := by
  unfold calcStep
  generalize (((List.lookup ps.uuid g.dependencies).map DepRecord.predicates).getD [])
    = preds
  have : ∀ (l : List Patchset) (m : List (GoStr × List Patchset)), m ≠ [] →
      l.foldl (fun m p => aset m p.uuid ((List.lookup p.uuid m).getD [] ++ [ps])) m ≠ [] := by
    intro l
    induction l with
    | nil => intro m hm; simpa using hm
    | cons x xs ih => intro m _; exact ih _ (aset_ne_nil _ _ _)
  exact this preds _ (aset_ne_nil _ _ _)

theorem calcRevDeps_ne_nil (g : StructGraph) (h : g.patchsets.slice ≠ []) :
    calcRevDeps g ≠ [] := by
  unfold calcRevDeps
  have : ∀ (l : List Patchset) (m : List (GoStr × List Patchset)),
      l ≠ [] → l.foldl (calcStep g) m ≠ [] := by
    intro l
    induction l with
    | nil => intro m hm; exact absurd rfl hm
    | cons x xs ih =>
      intro m _
      cases hxs : xs with
      | nil => simpa [hxs] using calcStep_ne_nil g m x
      | cons y ys =>
        rw [List.foldl_cons]
        exact hxs ▸ ih _ (by simp [hxs])
  exact this _ _ h

/-- A successful `Add` changes only the forward dependency map: the cache
and — decisive for the claim — the memoised reverse index are untouched. -/
theorem add_ok_fields {g g' : StructGraph} {p dep : Patchset}
    (h : g.add p dep = .ok g') :
    g'.reverseDependencies = g.reverseDependencies ∧ g'.patchsets = g.patchsets := by
  unfold StructGraph.add at h
  split at h
  · exact absurd h (by simp)
  · split at h
    · exact absurd h (by simp)
    · dsimp only at h
      split at h
      · exact absurd h (by simp)
      · cases h
        exact ⟨rfl, rfl⟩

/-- With a non-empty memo, `TransitiveReverseDependencies` just walks the
memo and leaves the graph unchanged. -/
theorem trd_of_memo_ne {g : StructGraph} (h : g.reverseDependencies ≠ []) (p : Patchset) :
    g.transitiveReverseDependencies p
      = (walk g.reverseDependencies [p] [p.uuid] [], g) := by
  unfold StructGraph.transitiveReverseDependencies
  rw [if_neg (by simpa [List.isEmpty_iff] using h)]

/-- After any call to `TransitiveReverseDependencies` on a graph with a
non-empty cache, the memo of the returned graph is non-empty. -/
theorem trd_snd_memo_ne (g : StructGraph) (q : Patchset)
    (hslice : g.patchsets.slice ≠ []) :
    ((g.transitiveReverseDependencies q).2).reverseDependencies ≠ [] := by
  unfold StructGraph.transitiveReverseDependencies
  by_cases h : g.reverseDependencies.isEmpty
  · rw [if_pos h]
    exact calcRevDeps_ne_nil g hslice
  · rw [if_neg h]
    simpa [List.isEmpty_iff] using h

/-- C8 (amended).  The reverse-dependency index is computed lazily on the
first call to `transitive_reverse_dependencies` and memoised for the
lifetime of the graph: a successful `add` does *not* invalidate it, so a
later call returns exactly what it would have returned before the `add` —
in particular the new edge is invisible to it. -/
theorem c8_memo_survives_add (g : StructGraph) (q p dep : Patchset) (g2 : StructGraph)
    (hslice : g.patchsets.slice ≠ [])
    (hadd : ((g.transitiveReverseDependencies q).2).add p dep = .ok g2) :
    (g2.transitiveReverseDependencies dep).1
      = (((g.transitiveReverseDependencies q).2).transitiveReverseDependencies dep).1 := by
  have h1 := trd_snd_memo_ne g q hslice
  have h2 := (add_ok_fields hadd).1
  rw [trd_of_memo_ne h1, trd_of_memo_ne (by rw [h2]; exact h1), h2]

/-- A two-patchset cache `[a, b]` in branch order. -/
def cache2 : PatchsetCache :=
  { slice := [psA, psB], index := [("a".toList, 0), ("b".toList, 1)] }

/-- The graph over `cache2` after a first (memo-building) reverse-closure
query: no edges, memo entries for both patchsets. -/
def c8g1 : StructGraph :=
  { patchsets := cache2,
    reverseDependencies := [("ua".toList, []), ("ub".toList, [])],
    dependencies := [] }

/-- `c8g1` after `add(b, a)` succeeded: the edge is in the forward map,
the stale memo is untouched. -/
def c8g2 : StructGraph :=
  { c8g1 with dependencies := [("ub".toList, { patchset := psB, predicates := [psA] })] }

/-- C8 (counterexample to the claim as stated).  On the cache `[a, b]`:
a first call to `transitive_reverse_dependencies(a)` memoises the (empty)
reverse index; `add(b, a)` then succeeds; but the claim's conclusion —
that a new call `transitive_reverse_dependencies(a)` now includes `b` —
is false: the call still returns `[]`, because `Add` does not invalidate
the memo and the stale index is reused. -/
theorem c8_stale_memo_counterexample :
    ((newStruct cache2).transitiveReverseDependencies psA).2 = c8g1 ∧
    c8g1.add psB psA = .ok c8g2 ∧
    (c8g2.transitiveReverseDependencies psA).1 = [] := by
  refine ⟨rfl, rfl, ?_⟩
  have h : c8g2.reverseDependencies = [("ua".toList, []), ("ub".toList, [])] := rfl
  rw [trd_of_memo_ne (by rw [h]; simp) psA]
  simp [walk, newPreds, nbrs, h, psA, mkPatchset, List.lookup]

/-- Witness for C8 (amended) at the concrete input of the counterexample:
the post-`add` query returns exactly the pre-`add` answer. -/
theorem c8_memo_survives_add_witness :
    (c8g2.transitiveReverseDependencies psA).1
      = ((((newStruct cache2).transitiveReverseDependencies psA).2).transitiveReverseDependencies psA).1 :=
  c8_memo_survives_add (newStruct cache2) psA psB psA c8g2 (by simp [newStruct, cache2]) rfl

/-! ## C4 -/

/-- The ordered predicate (edge) list recorded for `ps`, empty when `ps`
has no record. -/
def StructGraph.edges (g : StructGraph) (ps : Patchset) : List Patchset :=
  ((List.lookup ps.uuid g.dependencies).map DepRecord.predicates).getD []

theorem aset_lookup_self {α : Type} (m : List (GoStr × α)) (k : GoStr) (v : α) :
    List.lookup k (aset m k v) = some v := by
  induction m with
  | nil => simp [aset, List.lookup]
  | cons e es ih =>
    by_cases h : e.1 = k
    · simp [aset, h, List.lookup]
    · have hb : (e.1 == k) = false := beq_eq_false_iff_ne.mpr h
      have hb' : (k == e.1) = false := beq_eq_false_iff_ne.mpr (Ne.symm h)
      simp only [aset, hb, Bool.false_eq_true, if_false]
      rw [List.lookup, hb']
      exact ih

theorem aset_lookup_other {α : Type} (m : List (GoStr × α)) (k u : GoStr) (v : α)
    (hu : u ≠ k) : List.lookup u (aset m k v) = List.lookup u m := by
  induction m with
  | nil => simp [aset, List.lookup, beq_eq_false_iff_ne.mpr hu]
  | cons e es ih =>
    by_cases h : e.1 = k
    · simp only [aset, beq_iff_eq.mpr h, if_true]
      rw [List.lookup, List.lookup, beq_eq_false_iff_ne.mpr hu,
        beq_eq_false_iff_ne.mpr (show u ≠ e.1 by rw [h]; exact hu)]
    · simp only [aset, beq_eq_false_iff_ne.mpr h, Bool.false_eq_true, if_false]
      rw [List.lookup, List.lookup]
      cases hcase : u == e.1
      · exact ih
      · rfl

/-- C4.  `add(ps, dep)` fails with `SelfDep` when the UUIDs coincide;
otherwise fails with `OutOfOrder` when `ps`'s cache index is at most
`dep`'s; otherwise fails with `Duplicate` when an edge from `ps` to `dep`
is already recorded; otherwise succeeds, appending `dep` at the end of
`ps`'s ordered predicate list and leaving every earlier edge (and every
other patchset's record, the cache, and the reverse index) unchanged. -/
theorem c4_add_contract (g : StructGraph) (ps dep : Patchset)
    (_hps : ps ∈ g.patchsets.slice) (_hdep : dep ∈ g.patchsets.slice) :
    (ps.uuid = dep.uuid → g.add ps dep = .error .selfDep) ∧
    (ps.uuid ≠ dep.uuid → g.patchsets.idx ps.name ≤ g.patchsets.idx dep.name →
      g.add ps dep = .error .outOfOrder) ∧
    (ps.uuid ≠ dep.uuid → g.patchsets.idx dep.name < g.patchsets.idx ps.name →
      (∃ q ∈ g.edges ps, q.uuid = dep.uuid) → g.add ps dep = .error .duplicate) ∧
    (ps.uuid ≠ dep.uuid → g.patchsets.idx dep.name < g.patchsets.idx ps.name →
      (∀ q ∈ g.edges ps, q.uuid ≠ dep.uuid) →
      ∃ g', g.add ps dep = .ok g' ∧
        g'.edges ps = g.edges ps ++ [dep] ∧
        (∀ u, u ≠ ps.uuid → List.lookup u g'.dependencies = List.lookup u g.dependencies) ∧
        g'.patchsets = g.patchsets ∧ g'.reverseDependencies = g.reverseDependencies) := by
  refine ⟨?_, ?_, ?_, ?_⟩
  · intro h
    unfold StructGraph.add
    rw [if_pos (by simpa [Patchset.sameAs] using h)]
  · intro hne hord
    unfold StructGraph.add
    rw [if_neg (by simpa [Patchset.sameAs] using hne),
      if_pos (by simp [StructGraph.checkOrder]; omega)]
  · intro hne hord hdup
    unfold StructGraph.add
    rw [if_neg (by simpa [Patchset.sameAs] using hne),
      if_neg (by simp [StructGraph.checkOrder]; omega)]
    dsimp only
    rw [if_pos ?_]
    rcases hdup with ⟨q, hq, hquuid⟩
    refine List.any_eq_true.2 ⟨q, ?_, by simpa [Patchset.sameAs] using hquuid⟩
    unfold StructGraph.edges at hq
    cases hl : List.lookup ps.uuid g.dependencies with
    | none => rw [hl] at hq; simp at hq
    | some r => rw [hl] at hq; simpa using hq
  · intro hne hord hdup
    unfold StructGraph.add
    rw [if_neg (by simpa [Patchset.sameAs] using hne),
      if_neg (by simp [StructGraph.checkOrder]; omega)]
    dsimp only
    rw [if_neg ?_]
    case _ =>
      refine ⟨_, rfl, ?_, ?_, rfl, rfl⟩
      · unfold StructGraph.edges
        rw [aset_lookup_self]
        cases hl : List.lookup ps.uuid g.dependencies <;> simp [hl]
      · intro u hu
        exact aset_lookup_other _ _ _ _ hu
    · rw [Bool.not_eq_true]
      rw [List.any_eq_false]
      intro q hq
      have hq' : q ∈ g.edges ps := by
        unfold StructGraph.edges
        cases hl : List.lookup ps.uuid g.dependencies with
        | none => rw [hl] at hq; simp at hq
        | some r => rw [hl] at hq; simpa using hq
      simpa [Patchset.sameAs] using hdup q hq'

/-- Witness for C4 at concrete inputs: a self dependency is rejected, and
`add(b, a)` on the two-patchset cache succeeds with the edge appended. -/
theorem c4_add_contract_witness :
    (newStruct cache2).add psA psA = .error .selfDep ∧
    ∃ g', (newStruct cache2).add psB psA = .ok g' ∧
      g'.edges psB = (newStruct cache2).edges psB ++ [psA] ∧
      (∀ u, u ≠ psB.uuid →
        List.lookup u g'.dependencies = List.lookup u (newStruct cache2).dependencies) ∧
      g'.patchsets = (newStruct cache2).patchsets ∧
      g'.reverseDependencies = (newStruct cache2).reverseDependencies :=
  ⟨(c4_add_contract (newStruct cache2) psA psA (by decide) (by decide)).1 rfl,
   (c4_add_contract (newStruct cache2) psB psA (by decide) (by decide)).2.2.2
     (by decide) (by decide) (by decide)⟩

/-! ## C5 -/

theorem splitIf_dist (p : Char → Bool) (a b : GoStr) (c : Char) (hc : p c = true) :
    splitIf p (a ++ c :: b) = splitIf p a ++ splitIf p b := by
  induction a with
  | nil => simp [splitIf, hc]
  | cons x xs ih =>
    by_cases hx : p x = true
    · simp only [List.cons_append, splitIf, hx, if_true]
      rw [show xs.append (c :: b) = xs ++ c :: b from rfl, ih]
    · rw [Bool.not_eq_true] at hx
      simp only [List.cons_append, splitIf, hx, Bool.false_eq_true, if_false]
      rw [show xs.append (c :: b) = xs ++ c :: b from rfl, ih]
      cases hxs : splitIf p xs with
      | nil => exact absurd hxs (splitIf_ne_nil p xs)
      | cons r rs => rfl

/-- A token fit for the queue text format: non-empty and free of (Go)
whitespace. -/
def goodTok (t : GoStr) : Prop := t ≠ [] ∧ ∀ c ∈ t, goIsSpace c = false

instance (t : GoStr) : Decidable (goodTok t) := by
  unfold goodTok
  infer_instance

/-- An item fit for the queue text format. -/
def goodItem (i : Item) : Prop := goodTok i.operation ∧ ∀ a ∈ i.args, goodTok a

instance (i : Item) : Decidable (goodItem i) := by
  unfold goodItem
  infer_instance

theorem goFields_dist (a b : GoStr) (c : Char) (hc : goIsSpace c = true) :
    goFields (a ++ c :: b) = goFields a ++ goFields b := by
  unfold goFields
  rw [splitIf_dist goIsSpace a b c hc, List.filter_append]

theorem goFields_of_goodTok (t : GoStr) (h : goodTok t) : goFields t = [t] := by
  unfold goFields
  rw [splitIf_of_no_sep goIsSpace t h.2]
  have ht : t.isEmpty = false := by simpa [List.isEmpty_iff] using h.1
  simp [List.filter, ht]

theorem goFields_goJoin (toks : List GoStr) (h : ∀ t ∈ toks, goodTok t) :
    goFields (goJoin [' '] toks) = toks := by
  induction toks with
  | nil => simp [goJoin, goFields, splitIf, List.filter]
  | cons x xs ih =>
    cases xs with
    | nil => exact goFields_of_goodTok x (h x (by simp))
    | cons y ys =>
      have hx : goodTok x := h x (by simp)
      have hrest := ih (fun t ht => h t (List.mem_cons_of_mem _ ht))
      have hjoin : goJoin [' '] (x :: y :: ys) = x ++ ' ' :: goJoin [' '] (y :: ys) := by
        show (x ++ [' ']) ++ goJoin [' '] (y :: ys) = _
        rw [List.append_assoc]
        rfl
      rw [hjoin, goFields_dist _ _ ' ' (by decide), goFields_of_goodTok x hx, hrest]
      rfl

theorem mem_goJoin_space {c : Char} {toks : List GoStr}
    (h : c ∈ goJoin [' '] toks) : c = ' ' ∨ ∃ t ∈ toks, c ∈ t := by
  induction toks with
  | nil => simp [goJoin] at h
  | cons x xs ih =>
    cases xs with
    | nil => exact Or.inr ⟨x, by simp, h⟩
    | cons y ys =>
      have hjoin : goJoin [' '] (x :: y :: ys) = x ++ ' ' :: goJoin [' '] (y :: ys) := by
        show (x ++ [' ']) ++ goJoin [' '] (y :: ys) = _
        rw [List.append_assoc]
        rfl
      rw [hjoin] at h
      rcases List.mem_append.1 h with hx | hrest
      · exact Or.inr ⟨x, by simp, hx⟩
      · rcases List.mem_cons.1 hrest with hsp | hj
        · exact Or.inl hsp
        · rcases ih hj with hsp | ⟨t, ht, hc⟩
          · exact Or.inl hsp
          · exact Or.inr ⟨t, List.mem_cons_of_mem _ ht, hc⟩

/-- No newline occurs in the space-joined token list of a good item. -/
theorem goJoin_newline_free {i : Item} (h : goodItem i) :
    ∀ c ∈ goJoin [' '] (i.operation :: i.args), (c == '\n') = false := by
  intro c hc
  rcases mem_goJoin_space hc with rfl | ⟨t, ht, hmem⟩
  · decide
  · rcases List.mem_cons.1 ht with rfl | hargs
    · have := h.1.2 c hmem
      rw [beq_eq_false_iff_ne]
      intro hEq
      subst hEq
      simp [goIsSpace] at this
    · have := (h.2 t hargs).2 c hmem
      rw [beq_eq_false_iff_ne]
      intro hEq
      subst hEq
      simp [goIsSpace] at this

theorem lineItem_goJoin (i : Item) (h : goodItem i) :
    lineItem (goJoin [' '] (i.operation :: i.args)) = some i := by
  unfold lineItem itemUnmarshalFresh
  rw [goFields_goJoin _ (by
    intro t ht
    rcases List.mem_cons.1 ht with rfl | hargs
    · exact h.1
    · exact h.2 t hargs)]
  simp only [List.isEmpty_eq_true]
  rw [if_neg (by simpa using h.1.1)]

/-- The serialized queue parses back line by line. -/
theorem unmarshal_marshal_items (items : List Item) (h : ∀ i ∈ items, goodItem i) :
    (splitLines ((items.map Item.marshalText).flatten)).filterMap lineItem = items := by
  induction items with
  | nil =>
    show (splitLines []).filterMap lineItem = []
    simp [splitLines, splitIf, lineItem, itemUnmarshalFresh, goFields, List.filter]
  | cons i rest ih =>
    have hi : goodItem i := h i (by simp)
    have hrest := ih (fun j hj => h j (List.mem_cons_of_mem _ hj))
    show (splitLines ((goJoin [' '] (i.operation :: i.args) ++ ['\n']) ++
      (rest.map Item.marshalText).flatten)).filterMap lineItem = i :: rest
    rw [List.append_assoc, List.singleton_append]
    unfold splitLines
    rw [splitIf_dist _ _ _ '\n' (by decide),
      splitIf_of_no_sep _ _ (goJoin_newline_free hi)]
    rw [List.filterMap_append]
    rw [show (splitIf (· == '\n') ((rest.map Item.marshalText).flatten)) =
      splitLines ((rest.map Item.marshalText).flatten) from rfl, hrest]
    simp [lineItem_goJoin i hi]

/-- C5 (amended).  For every queue whose items have a non-empty,
whitespace-free operation name and non-empty, whitespace-free arguments,
unmarshalling the marshalled text into an empty queue yields the original
queue (blank lines in the text are ignored).  The claim as frozen demands
this with no constraint beyond non-emptiness of the name: the
counterexample below shows it then fails. -/
theorem c5_queue_roundtrip (q : Queue) (h : ∀ i ∈ q.items, goodItem i) :
    Queue.unmarshalText { items := [] } q.marshalText = q := by
  unfold Queue.unmarshalText Queue.marshalText
  rw [List.nil_append, unmarshal_marshal_items q.items h]

/-- Witness for C5 (amended) at a concrete queue. -/
theorem c5_queue_roundtrip_witness :
    Queue.unmarshalText { items := [] }
        (Queue.marshalText { items := [{ operation := "Rework".toList, args := ["foo".toList] }] })
      = { items := [{ operation := "Rework".toList, args := ["foo".toList] }] } :=
  c5_queue_roundtrip _ (by decide)

/-- C5 (counterexample to the claim as stated).  The queue with the single
item `("a b", [""])` has a non-empty operation name, and its argument —
the empty string — contains no whitespace character; yet parsing its
serialization `"a b \n"` yields the different queue `[("a", ["b"])]`. -/
theorem c5_roundtrip_counterexample :
    (({ items := [{ operation := "a b".toList, args := [[]] }] } : Queue).items.all
      (fun i => !i.operation.isEmpty
        && i.args.all (fun a => a.all (fun c => !goIsSpace c)))) = true ∧
    Queue.unmarshalText { items := [] }
        (Queue.marshalText { items := [{ operation := "a b".toList, args := [[]] }] })
      = { items := [{ operation := "a".toList, args := ["b".toList] }] } ∧
    decide (({ items := [{ operation := "a".toList, args := ["b".toList] }] } : Queue)
      = { items := [{ operation := "a b".toList, args := [[]] }] }) = false := by
  refine ⟨by decide, by decide, by decide⟩

/-! ## C10 -/

/-- C10.  When the head item names an unregistered operation, `Execute`
pops it first and then fails with the unknown-operation error: the pop is
not rolled back, so the failing item is gone from the queue and a retry
would pop the next item. -/
theorem c10_unknown_op_popped (e : Executor) (item : Item) (rest : List Item)
    (hq : e.queue = item :: rest)
    (hunk : List.lookup item.operation e.registered = none) :
    e.execute = ({ e with queue := rest }, some (.unknownOp item.operation)) := by
  unfold Executor.execute
  rw [hq]
  dsimp only
  rw [hunk]

/-- Witness for C10 at a concrete executor with an empty registry. -/
theorem c10_unknown_op_popped_witness :
    Executor.execute { registered := [], queue := [{ operation := "Nope".toList, args := [] }] }
      = ({ registered := [], queue := [] }, some (.unknownOp "Nope".toList)) :=
  c10_unknown_op_popped
    { registered := [], queue := [{ operation := "Nope".toList, args := [] }] }
    { operation := "Nope".toList, args := [] } [] rfl rfl

/-! ## C9 -/

/-- C9.  `write_queue` of an empty queue is `clear_queue` (the file ends
up removed, not written); `write_current` of an item with an empty
operation name is `clear_current`; reading an absent queue-file or
current-file yields an empty queue; and both clears are idempotent. -/
theorem c9_state_file_contract :
    (∀ fs : FS, writeQueueState { items := [] } fs = clearQueueState fs ∧
      (writeQueueState { items := [] } fs).queueFile = none) ∧
    (∀ (fs : FS) (args : List GoStr),
      writeCurrentState { operation := [], args := args } fs = clearCurrentState fs ∧
      (writeCurrentState { operation := [], args := args } fs).currentFile = none) ∧
    (∀ cf, readState { queueFile := none, currentFile := cf } = { items := [] }) ∧
    (∀ qf, readCurrentState { queueFile := qf, currentFile := none } = { items := [] }) ∧
    (∀ fs : FS, clearQueueState (clearQueueState fs) = clearQueueState fs ∧
      clearCurrentState (clearCurrentState fs) = clearCurrentState fs) :=
  ⟨fun _ => ⟨rfl, rfl⟩, fun _ _ => ⟨rfl, rfl⟩, fun _ => rfl, fun _ => rfl,
   fun _ => ⟨rfl, rfl⟩⟩

/-! ## C3 -/

/-- `ReadState` looks only at the queue file. -/
theorem readState_currentFile (fs : FS) (x : Option GoStr) :
    readState { fs with currentFile := x } = readState fs := by
  cases fs
  rfl

/-- Reading back a written current-file recovers a good item. -/
theorem readCurrentState_marshal (fs : FS) (i : Item) (h : goodItem i)
    (hcf : fs.currentFile = some i.marshalText) :
    readCurrentState fs = { items := [i] } := by
  unfold readCurrentState
  rw [hcf]
  show (if List.isEmpty i.marshalText = true then ({ items := [] } : Queue)
    else
      let item := itemUnmarshalFresh i.marshalText
      if List.isEmpty item.operation = true then { items := [] } else { items := [item] })
    = { items := [i] }
  rw [if_neg (by simp [Item.marshalText])]
  unfold itemUnmarshalFresh Item.marshalText
  rw [show goJoin [' '] (i.operation :: i.args) ++ ['\n']
      = goJoin [' '] (i.operation :: i.args) ++ '\n' :: [] from rfl,
    goFields_dist _ _ '\n' (by decide),
    goFields_goJoin _ (by
      intro t ht
      rcases List.mem_cons.1 ht with rfl | hargs
      · exact h.1
      · exact h.2 t hargs)]
  simp [goFields, splitIf, List.filter, h.1.1]

/-- C3 (amended).  For a head item whose operation is registered and
resumable and whose name and arguments are non-empty and whitespace-free:
the item is written to the current-file before execution; when the
operation fails (for example with `UserActionRequired`) the error is
returned with the current-file still holding exactly that item, and the
list `continue` loads (current-file first, then queue-file) starts with
the same item with the same arguments; when the operation succeeds the
current-file is cleared. -/
theorem c3_resumable_current_protocol (e : Executor) (fs : FS) (item : Item)
    (rest : List Item) (op : Operation)
    (hq : e.queue = item :: rest)
    (hop : List.lookup item.operation e.registered = some op)
    (hres : op.resumable = true)
    (hgood : goodItem item) :
    (∀ err, op.exec item.args = some err →
      commandExecute e fs
        = ({ e with queue := rest },
           { fs with currentFile := some item.marshalText }, some err) ∧
      continueLoad { fs with currentFile := some item.marshalText }
        = item :: (readState fs).items) ∧
    (op.exec item.args = none →
      commandExecute e fs = ({ e with queue := rest }, clearCurrentState fs, none)) := by
  have hwrite : writeCurrentState item fs = { fs with currentFile := some item.marshalText } := by
    unfold writeCurrentState
    rw [if_neg (by simpa using hgood.1.1)]
  have hpeek : e.peek = some item := by
    unfold Executor.peek
    rw [hq]
    rfl
  have hresOf : e.resumableOf item.operation = true := by
    unfold Executor.resumableOf
    rw [hop]
    simpa using hres
  constructor
  · intro err herr
    constructor
    · unfold commandExecute
      rw [hpeek]
      dsimp only
      rw [hresOf, if_pos rfl, hwrite]
      unfold Executor.execute
      rw [hq]
      dsimp only
      rw [hop]
      dsimp only
      rw [herr]
    · unfold continueLoad
      rw [readCurrentState_marshal _ item hgood rfl, readState_currentFile]
      rfl
  · intro hok
    unfold commandExecute
    rw [hpeek]
    dsimp only
    rw [hresOf, if_pos rfl, hwrite]
    unfold Executor.execute
    rw [hq]
    dsimp only
    rw [hop]
    dsimp only
    rw [hok]
    rfl

/-- A resumable operation that always stops with `UserActionRequired`,
like a conflicting cherry-pick inside `Rework`. -/
def opUAR : Operation :=
  { resumable := true, exec := fun _ => some .userActionRequired }

/-- An empty state directory. -/
def fs0 : FS := { queueFile := none, currentFile := none }

/-- A well-formed head item. -/
def reworkFooItem : Item := { operation := "Rework".toList, args := ["foo".toList] }

/-- An executor about to run `Rework foo`, which will stop with
`UserActionRequired`. -/
def e3 : Executor :=
  { registered := [("Rework".toList, opUAR)], queue := [reworkFooItem] }

/-- Witness for C3 (amended) at the concrete executor `e3`. -/
theorem c3_resumable_current_protocol_witness :
    commandExecute e3 fs0
      = ({ e3 with queue := [] },
         { fs0 with currentFile := some reworkFooItem.marshalText },
         some .userActionRequired) ∧
    continueLoad { fs0 with currentFile := some reworkFooItem.marshalText }
      = reworkFooItem :: (readState fs0).items :=
  (c3_resumable_current_protocol e3 fs0 reworkFooItem [] opUAR rfl rfl rfl
    (by decide)).1 .userActionRequired rfl

/-- The same executor with a whitespace-carrying argument. -/
def e3ws : Executor :=
  { registered := [("Rework".toList, opUAR)],
    queue := [{ operation := "Rework".toList, args := ["foo bar".toList] }] }

/-- C3 (counterexample to the claim as stated).  The claim quantifies over
every queue state.  For the state whose head item is
`Rework` with the single argument `"foo bar"`, the failing execution
leaves `"Rework foo bar\n"` in the current-file as promised — but
`continue`, which re-parses that line by whitespace
(`strings.Fields`), loads `Rework` with the two arguments
`["foo", "bar"]`: not the same arguments. -/
theorem c3_whitespace_args_counterexample :
    (commandExecute e3ws fs0).2.1.currentFile = some "Rework foo bar\n".toList ∧
    (commandExecute e3ws fs0).2.2 = some .userActionRequired ∧
    continueLoad (commandExecute e3ws fs0).2.1
      = [{ operation := "Rework".toList, args := ["foo".toList, "bar".toList] }] ∧
    decide (({ operation := "Rework".toList, args := ["foo".toList, "bar".toList] } : Item)
      = { operation := "Rework".toList, args := ["foo bar".toList] }) = false := by
  refine ⟨by decide, rfl, by decide, by decide⟩

/-! ## C7 -/

/-- C7 (amended).  `rework_in_progress()` consults only the symbolic ref
`refs/kilt/rework/branch`: it returns `false` when that ref is absent —
whatever other refs (such as `refs/kilt/rework/head`) exist — and `true`
when it is present and resolves to a ref with a non-empty name. -/
theorem c7_check_rework_branch_only (s : RefStore) :
    (refLookup s reworkBranchRef = none → checkRework s = .ok false) ∧
    (∀ r name, refLookup s reworkBranchRef = some r →
      refResolve s 10 reworkBranchRef r = some name → name ≠ [] →
      checkRework s = .ok true) := by
  constructor
  · intro h
    unfold checkRework
    rw [h]
  · intro r name hl hres hname
    unfold checkRework
    rw [hl]
    dsimp only
    rw [hres]
    dsimp only
    rw [show name.isEmpty = false from by simpa [List.isEmpty_iff] using hname]
    rfl

/-- Witness for C7 (amended): a store with only the rework head ref reads
as no rework in progress; one with a resolvable branch ref reads as in
progress. -/
theorem c7_check_rework_branch_only_witness :
    checkRework { refs := [(reworkHeadRef, .direct "c0".toList)] } = .ok false ∧
    checkRework { refs := [(reworkBranchRef, .symbolic "refs/heads/main".toList),
                           ("refs/heads/main".toList, .direct "c0".toList)] } = .ok true :=
  ⟨(c7_check_rework_branch_only _).1 (by decide),
   (c7_check_rework_branch_only _).2 (.symbolic "refs/heads/main".toList)
     "refs/heads/main".toList (by decide) (by decide) (by decide)⟩

/-- C7 (counterexample to the claim as stated).  The claim says
`rework_in_progress()` is true when `refs/kilt/rework/head` exists and
`refs/kilt/rework/branch` does not; on exactly that ref store the code
returns `false`, because `checkRework` looks up only the branch ref. -/
theorem c7_head_only_counterexample :
    checkRework { refs := [(reworkHeadRef, .direct "c0".toList)] } = .ok false ∧
    refLookup { refs := [(reworkHeadRef, .direct "c0".toList)] } reworkHeadRef
      = some (.direct "c0".toList) ∧
    refLookup { refs := [(reworkHeadRef, .direct "c0".toList)] } reworkBranchRef
      = none := by
  refine ⟨rfl, by decide, by decide⟩

/-! ## C6 -/

/-- `Char.ofNat` round-trips through `toNat` below the surrogate range. -/
theorem toNat_ofNat_small (n : Nat) (h : n < 55296) : (Char.ofNat n).toNat = n := by
  unfold Char.ofNat
  rw [dif_pos (by unfold Nat.isValidChar; omega)]
  rfl

theorem natToDigits_mem (n : Nat) : ∀ c ∈ natToDigits n, 48 ≤ c.toNat ∧ c.toNat ≤ 57 := by
  induction n using Nat.strong_induction_on with
  | _ n ih =>
    rw [natToDigits]
    split
    · rename_i h
      intro c hc
      rcases List.mem_singleton.1 hc with rfl
      rw [toNat_ofNat_small _ (by omega)]
      omega
    · rename_i h
      intro c hc
      rcases List.mem_append.1 hc with hc' | hc'
      · exact ih (n / 10) (Nat.div_lt_self (by omega) (by omega)) c hc'
      · rcases List.mem_singleton.1 hc' with rfl
        have := Nat.mod_lt n (show 0 < 10 by omega)
        rw [toNat_ofNat_small _ (by omega)]
        omega

theorem natToDigits_ne_nil (n : Nat) : natToDigits n ≠ [] := by
  rw [natToDigits]
  split <;> simp

theorem digitVal_digit (m : Nat) (hm : m < 10) :
    digitVal (Char.ofNat (48 + m)) = some m := by
  interval_cases m <;> decide

theorem parseDigits_cons_ne_nil (s : GoStr) (hs : s ≠ []) :
    parseDigits s
      = s.foldl (fun acc c => acc.bind fun a => (digitVal c).map fun d => 10 * a + d)
          (some 0) := by
  unfold parseDigits
  cases s with
  | nil => exact absurd rfl hs
  | cons c cs => rfl

theorem parseDigits_append_digit (s : GoStr) (c : Char) (a d : Nat)
    (hs : s ≠ []) (hsv : parseDigits s = some a) (hc : digitVal c = some d) :
    parseDigits (s ++ [c]) = some (10 * a + d) := by
  rw [parseDigits_cons_ne_nil _ (by simp [hs]), List.foldl_append,
    ← parseDigits_cons_ne_nil s hs, hsv]
  simp [hc]

theorem parseDigits_natToDigits (n : Nat) : parseDigits (natToDigits n) = some n := by
  induction n using Nat.strong_induction_on with
  | _ n ih =>
    rw [natToDigits]
    split
    · rename_i h
      rw [parseDigits_cons_ne_nil _ (by simp)]
      simp only [List.foldl_cons, List.foldl_nil, Option.bind_some]
      rw [digitVal_digit n h]
      simp
    · rename_i h
      have := Nat.mod_lt n (show 0 < 10 by omega)
      rw [parseDigits_append_digit _ _ (n / 10) (n % 10) (natToDigits_ne_nil _)
        (ih (n / 10) (Nat.div_lt_self (by omega) (by omega))) (digitVal_digit _ (by omega))]
      rw [Nat.div_add_mod]

theorem goParseInt32_natToDigits (n : Nat) :
    goParseInt32 (natToDigits n) =
      (if (n : Int) < -(2 ^ 31) || 2 ^ 31 - 1 < (n : Int) then none
       else some (n : Int)) := by
  obtain ⟨c, cs, hs⟩ : ∃ c cs, natToDigits n = c :: cs := by
    cases h : natToDigits n with
    | nil => exact absurd h (natToDigits_ne_nil n)
    | cons c cs => exact ⟨c, cs, rfl⟩
  have hdig := natToDigits_mem n c (by rw [hs]; simp)
  have hminus : (c == '-') = false := by
    rw [beq_eq_false_iff_ne]
    intro hEq
    rw [hEq] at hdig
    exact absurd hdig (by decide)
  have hplus : (c == '+') = false := by
    rw [beq_eq_false_iff_ne]
    intro hEq
    rw [hEq] at hdig
    exact absurd hdig (by decide)
  unfold goParseInt32
  rw [hs]
  dsimp only
  rw [hminus, hplus]
  simp only [Bool.or_self, Bool.false_eq_true, if_false]
  rw [← hs, parseDigits_natToDigits n]

/-- Parsing the decimal rendering of an `int` recovers the value exactly
when it fits in 32 bits; outside the 32-bit range `ParseInt` errors. -/
theorem goParseInt32_intToGoStr (v : Int) :
    goParseInt32 (intToGoStr v) =
      (if v < -(2 ^ 31) || 2 ^ 31 - 1 < v then none else some v) := by
  by_cases hv : v < 0
  · unfold intToGoStr
    rw [if_pos hv]
    unfold goParseInt32
    dsimp only
    simp only [beq_self_eq_true, Bool.true_or, if_true]
    rw [parseDigits_natToDigits]
    have hcast : (((-v).toNat : Int)) = -v := Int.toNat_of_nonneg (by omega)
    simp only [hcast, if_true, neg_neg]
  · unfold intToGoStr
    rw [if_neg hv]
    rw [goParseInt32_natToDigits]
    have hcast : ((v.toNat : Int)) = v := Int.toNat_of_nonneg (by omega)
    rw [hcast]

/-- The decimal rendering of an `int` is newline-free (digits and a
possible leading minus sign). -/
theorem intToGoStr_nl_free (v : Int) : '\n' ∉ intToGoStr v := by
  unfold intToGoStr
  intro hmem
  have hdig : ∀ n : Nat, '\n' ∉ natToDigits n := by
    intro n hn
    have := natToDigits_mem n '\n' hn
    exact absurd this (by decide)
  split at hmem
  · rcases List.mem_cons.1 hmem with h | h
    · exact absurd h (by decide)
    · exact hdig _ h
  · exact hdig _ hmem

theorem takeWhile_append_all (p : Char → Bool) (a b : GoStr)
    (ha : ∀ c ∈ a, p c = true) :
    (a ++ b).takeWhile p = a ++ b.takeWhile p := by
  induction a with
  | nil => rfl
  | cons x xs ih =>
    have hx := ha x (by simp)
    simp only [List.cons_append, List.takeWhile_cons, hx, if_true]
    rw [ih (fun c hc => ha c (by simp [hc]))]

theorem dropWhile_append_all (p : Char → Bool) (a b : GoStr)
    (ha : ∀ c ∈ a, p c = true) :
    (a ++ b).dropWhile p = b.dropWhile p := by
  induction a with
  | nil => rfl
  | cons x xs ih =>
    have hx := ha x (by simp)
    simp only [List.cons_append, List.dropWhile_cons, hx, if_true]
    exact ih (fun c hc => ha c (by simp [hc]))

/-- A well-formed field line `key: value` parses to its key and value. -/
theorem parseFieldLine_keyval (key val : GoStr) (hkey : key ≠ [])
    (hkeyc : ∀ c ∈ key, isAlnumDash c = true) (hval : '\n' ∉ val) :
    parseFieldLine (key ++ ':' :: ' ' :: val) = some (key, val) := by
  unfold parseFieldLine
  rw [takeWhile_append_all _ _ _ hkeyc, dropWhile_append_all _ _ _ hkeyc]
  rw [show (':' :: ' ' :: val).takeWhile isAlnumDash = [] from rfl,
    show (':' :: ' ' :: val).dropWhile isAlnumDash = ':' :: ' ' :: val from rfl,
    List.append_nil]
  show (if (List.isEmpty key || List.contains val '\n') = true then none
      else some (key, val)) = some (key, val)
  rw [if_neg]
  simp only [List.isEmpty_eq_true, Bool.or_eq_true, not_or]
  exact ⟨by simpa using hkey, by simpa [List.elem_iff] using hval⟩

theorem nl_free_append (pre tail : GoStr) (hpre : ∀ c ∈ pre, (c == '\n') = false)
    (htail : '\n' ∉ tail) : ∀ c ∈ pre ++ tail, (c == '\n') = false := by
  intro c hc
  rcases List.mem_append.1 hc with h | h
  · exact hpre c h
  · rw [beq_eq_false_iff_ne]
    intro hEq
    subst hEq
    exact htail h

/-- The metadata commit message splits into its six lines: the subject,
the blank separator, the three field lines, and the empty tail after the
final newline. -/
theorem splitLines_metadataMessage (ps : Patchset)
    (hnn : '\n' ∉ ps.name) (hun : '\n' ∉ ps.uuid) :
    splitLines (metadataMessage ps) =
      [metadataPrefix ++ ps.name, [],
       "Patchset-Name: ".toList ++ ps.name,
       "Patchset-UUID: ".toList ++ ps.uuid,
       "Patchset-Version: ".toList ++ intToGoStr ps.version, []] := by
  have hmsg : metadataMessage ps =
      (metadataPrefix ++ ps.name) ++ '\n' ::
        ([] ++ '\n' ::
          (("Patchset-Name: ".toList ++ ps.name) ++ '\n' ::
            (("Patchset-UUID: ".toList ++ ps.uuid) ++ '\n' ::
              (("Patchset-Version: ".toList ++ intToGoStr ps.version) ++ '\n' :: [])))) := by
    unfold metadataMessage
    simp [List.append_assoc]
  unfold splitLines
  rw [hmsg]
  rw [splitIf_dist _ _ _ '\n' (by decide), splitIf_dist _ _ _ '\n' (by decide),
    splitIf_dist _ _ _ '\n' (by decide), splitIf_dist _ _ _ '\n' (by decide),
    splitIf_dist _ _ _ '\n' (by decide)]
  rw [splitIf_of_no_sep _ _ (nl_free_append _ _ (by decide) hnn)]
  rw [splitIf_of_no_sep _ _ (nl_free_append _ _ (by decide) hnn)]
  rw [splitIf_of_no_sep _ _ (nl_free_append _ _ (by decide) hun)]
  rw [splitIf_of_no_sep _ _ (nl_free_append _ _ (by decide) (intToGoStr_nl_free ps.version))]
  rfl

/-- Parsing the fields of a metadata commit message: the subject is
skipped and exactly the three written fields are collected. -/
theorem parseFields_metadataMessage (ps : Patchset)
    (hnn : '\n' ∉ ps.name) (hun : '\n' ∉ ps.uuid) :
    parseFields (metadataMessage ps) =
      [("Patchset-Name".toList, ps.name),
       ("Patchset-UUID".toList, ps.uuid),
       ("Patchset-Version".toList, intToGoStr ps.version)] := by
  unfold parseFields
  rw [splitLines_metadataMessage ps hnn hun]
  rw [show ("Patchset-Name: ".toList ++ ps.name)
      = "Patchset-Name".toList ++ ':' :: ' ' :: ps.name from rfl,
    show ("Patchset-UUID: ".toList ++ ps.uuid)
      = "Patchset-UUID".toList ++ ':' :: ' ' :: ps.uuid from rfl,
    show ("Patchset-Version: ".toList ++ intToGoStr ps.version)
      = "Patchset-Version".toList ++ ':' :: ' ' :: intToGoStr ps.version from rfl]
  simp only [List.drop_succ_cons, List.drop_zero, List.foldl_cons, List.foldl_nil]
  rw [parseFieldLine_keyval _ _ (by decide) (by decide) hnn,
    parseFieldLine_keyval _ _ (by decide) (by decide) hun,
    parseFieldLine_keyval _ _ (by decide) (by decide) (intToGoStr_nl_free ps.version)]
  simp +decide [aset, parseFieldLine]

/-- C6 (amended).  For every patchset whose name is non-empty and
newline-free, whose UUID renders to a non-empty newline-free string (as
every canonical UUID does), and whose version fits in a signed 32-bit
integer, parsing the commit message written by `add_patchset` yields a
patchset with the same name, the same UUID and the same version —
differing only in the metadata commit id (and the patch lists, which a
parsed patchset never carries).  The claim as frozen has no version
bound; the counterexample below shows one is needed, because
`ParseVersion` parses with `strconv.ParseInt(v, 10, 32)`. -/
theorem c6_metadata_roundtrip (ps : Patchset)
    (hn : ps.name ≠ []) (hnn : '\n' ∉ ps.name)
    (hu : ps.uuid ≠ []) (hun : '\n' ∉ ps.uuid)
    (hlo : -(2 ^ 31) ≤ ps.version) (hhi : ps.version ≤ 2 ^ 31 - 1) :
    patchsetFromMetadata (metadataMessage ps)
      = .ok (some { name := ps.name, uuid := ps.uuid, version := ps.version,
                    metadata := [], patches := [], floating := [] }) := by
  unfold patchsetFromMetadata
  rw [parseFields_metadataMessage ps hnn hun]
  have h21 : ("Patchset-UUID".toList == "Patchset-Name".toList) = false := by decide
  have h31 : ("Patchset-Version".toList == "Patchset-Name".toList) = false := by decide
  have h32 : ("Patchset-Version".toList == "Patchset-UUID".toList) = false := by decide
  simp only [List.lookup, beq_self_eq_true, h21, h31, h32]
  rw [goParseInt32_intToGoStr]
  rw [if_neg (by simp only [Bool.or_eq_true, decide_eq_true_eq, not_or]; omega)]
  have hn' : ps.name.isEmpty = false := by simpa [List.isEmpty_iff] using hn
  have hu' : ps.uuid.isEmpty = false := by simpa [List.isEmpty_iff] using hu
  unfold patchsetLoad
  simp [hn', hu']

/-- A patchset as in the witness, version 3. -/
def c6ps : Patchset :=
  { name := "foo".toList, uuid := "123e4567-e89b-12d3-a456-426614174000".toList,
    version := 3, metadata := "m0".toList, patches := [], floating := [] }

/-- Witness for C6 (amended) at a concrete patchset. -/
theorem c6_metadata_roundtrip_witness :
    patchsetFromMetadata (metadataMessage c6ps)
      = .ok (some { name := c6ps.name, uuid := c6ps.uuid, version := c6ps.version,
                    metadata := [], patches := [], floating := [] }) :=
  c6_metadata_roundtrip c6ps (by decide) (by decide) (by decide) (by decide)
    (by decide) (by decide)

/-- The same patchset with version `2^31`, just outside the 32-bit
range. -/
def c6psBig : Patchset := { c6ps with version := 2147483648 }

/-- A version outside the signed 32-bit range makes the metadata parse
fail with a version-parse error. -/
theorem metadata_parse_out_of_range (ps : Patchset)
    (hnn : '\n' ∉ ps.name) (hun : '\n' ∉ ps.uuid)
    (hrange : ps.version < -(2 ^ 31) ∨ 2 ^ 31 - 1 < ps.version) :
    patchsetFromMetadata (metadataMessage ps) = .error .metadataParse := by
  unfold patchsetFromMetadata
  have h21 : ("Patchset-UUID".toList == "Patchset-Name".toList) = false := by decide
  have h31 : ("Patchset-Version".toList == "Patchset-Name".toList) = false := by decide
  have h32 : ("Patchset-Version".toList == "Patchset-UUID".toList) = false := by decide
  simp only [parseFields_metadataMessage ps hnn hun,
    List.lookup, beq_self_eq_true, h21, h31, h32, goParseInt32_intToGoStr]
  rw [if_pos (by
    simp only [Bool.or_eq_true, decide_eq_true_eq]
    omega)]

/-- C6 (counterexample to the claim as stated).  The patchset `c6psBig`
has a non-empty newline-free name, a canonical UUID and a version — yet
parsing the metadata commit message written for it fails (its version
`2^31` overflows `strconv.ParseInt`'s 32-bit check), so no patchset equal
to it is recovered. -/
theorem c6_version_range_counterexample :
    patchsetFromMetadata (metadataMessage c6psBig) = .error .metadataParse :=
  metadata_parse_out_of_range c6psBig (by decide) (by decide) (Or.inr (by decide))

end Kilt
